import Mathlib

/-
Verification of the `gotemplate` source-to-source template instantiator
(`main.go`).  The program parses a Go template file, extracts a
`template type Name(Params)` annotation comment, classifies top-level
declarations, builds an old-name -> new-name mapping, rewrites every
identifier occurrence, and emits the renamed file.

Strings are modelled as lists of byte codes (`Str := List Nat`), since Go
strings are byte sequences and all identifiers involved are ASCII.
The whole-tree identifier rewriter (`rewriteFile`, which lives in a file of
the repository that is not part of the examined sources) is modelled from
the specification as an exact-name structural substitution on identifier
nodes; everything else is translated directly from `main.go`.
-/

set_option autoImplicit false

/-- Go strings, modelled as their byte sequences. -/
abbrev Str : Type := List Nat

/-- Byte codes of a Lean string literal (convenience for concrete inputs). -/
def str (s : String) : Str := s.data.map Char.toNat

/-- `unicode.IsSpace` restricted to ASCII: `\t \n \v \f \r ' '`.
Used by `strings.TrimSpace`. -/
def isGoSpace (n : Nat) : Bool := n = 9 || n = 10 || n = 11 || n = 12 || n = 13 || n = 32

/-- The `\s` character class of Go's regexp (RE2): `[\t\n\f\r ]`. -/
def isRegexSpace (n : Nat) : Bool := n = 9 || n = 10 || n = 12 || n = 13 || n = 32

/-- The `\w` character class of Go's regexp: `[0-9A-Za-z_]`. -/
def isWordChar (n : Nat) : Bool :=
  (48 ≤ n && n ≤ 57) || (65 ≤ n && n ≤ 90) || (97 ≤ n && n ≤ 122) || n = 95

/-- ASCII upper-case letter test (`unicode.IsUpper` on ASCII). -/
def isUpperCode (n : Nat) : Bool := 65 ≤ n && n ≤ 90

/-- Lower-case an ASCII byte (`strings.ToLower` on a one-byte string). -/
def lowerCode (n : Nat) : Nat := if isUpperCode n then n + 32 else n

/-- `ast.IsExported`: the first character is an upper-case letter. -/
def isExportedStr : Str → Bool
  | [] => false
  | c :: _ => isUpperCode c

/-- `strings.ToLower(s[:1]) + s[1:]`: lower-case only the first character. -/
def lowerFirst : Str → Str
  | [] => []
  | c :: rest => lowerCode c :: rest

/-- `strings.Contains(s, sub)`. -/
def strContains (sub : Str) : Str → Bool
  | [] => List.isPrefixOf sub []
  | c :: rest => List.isPrefixOf sub (c :: rest) || strContains sub rest

/-- `strings.Replace(s, old, new, 1)`: replace the first occurrence of
`old` in `s` by `new` (if `old` does not occur, `s` is unchanged). -/
def replaceFirst (old new : Str) : Str → Str
  | [] => if List.isPrefixOf old ([] : Str) then new else []
  | c :: rest =>
    if List.isPrefixOf old (c :: rest) then new ++ (c :: rest).drop old.length
    else c :: replaceFirst old new rest

/-- `strings.Split(s, sep)` for a one-byte separator: Go's `Split` always
returns at least one field, so the empty string splits to `[""]`. -/
def splitOnCode (sep : Nat) : Str → List Str
  | [] => [[]]
  | c :: rest =>
    if c = sep then [] :: splitOnCode sep rest
    else
      match splitOnCode sep rest with
      | [] => [[c]]
      | h :: t => (c :: h) :: t

/-- `strings.TrimSpace`. -/
def trimSpace (s : Str) : Str :=
  ((s.dropWhile isGoSpace).reverse.dropWhile isGoSpace).reverse

/-- `parseArgs` from `main.go`: split the argument string on commas and trim
each field.  (Note: Go's `strings.Split` of the empty string yields one
empty field, so `parseArgs("")` is `[""]`, not `[]`.) -/
def parseArgs (s : Str) : List Str :=
  (splitOnCode 44 s).map trimSpace

/-- `containsString(needle, haystack)` from `main.go`. -/
def containsString (needle : Str) (haystack : List Str) : Bool :=
  haystack.any (fun item => item == needle)

/-- Association-list lookup, modelling access to the Go map
`mappings[name]`. -/
def lookupStr : List (Str × Str) → Str → Option Str
  | [], _ => none
  | (k, v) :: rest, x => if x = k then some v else lookupStr rest x

/-- Assignment `mappings[k] = v` on the association-list model of a Go map:
overwrite an existing binding in place, otherwise add a new one. -/
def mapSet (m : List (Str × Str)) (k v : Str) : List (Str × Str) :=
  match lookupStr m k with
  | none => m ++ [(k, v)]
  | some _ => m.map (fun p => if p.1 = k then (k, v) else p)

/-- Match a literal token at the head of the input, returning the rest. -/
def matchLiteral (lit s : Str) : Option Str :=
  if List.isPrefixOf lit s then some (s.drop lit.length) else none

/-- Match `\s+` (one or more regexp whitespace characters), maximal munch. -/
def matchSpaces1 : Str → Option Str
  | [] => none
  | c :: rest =>
    if isRegexSpace c then some (rest.dropWhile isRegexSpace) else none

/-- Match `(.*?)\)\s*$` after the opening parenthesis: the capture extends
(over non-newline characters) to the first `)` that is followed only by
whitespace up to the end of the comment text. -/
def matchParen (acc : Str) : Str → Option Str
  | [] => none
  | c :: rest =>
    if c = 41 && rest.all isRegexSpace then some acc.reverse
    else if c = 10 then none
    else matchParen (c :: acc) rest

/-- Byte codes of `"template"`. -/
def strTemplate : Str := [116, 101, 109, 112, 108, 97, 116, 101]

/-- Byte codes of `"type"`. -/
def strType : Str := [116, 121, 112, 101]

/-- The anchored regexp `^/[*/]\s+template\s+type\s+(\w+)\((.*?)\)\s*$`
(`matchTemplateType` in `main.go`) applied to one comment text: on success
returns the captured template name and raw parameter-list text. -/
def matchTemplateType (s : Str) : Option (Str × Str) :=
  match s with
  | 47 :: c1 :: rest =>
    if c1 = 42 || c1 = 47 then
      match matchSpaces1 rest with
      | none => none
      | some s1 =>
        match matchLiteral strTemplate s1 with
        | none => none
        | some s2 =>
          match matchSpaces1 s2 with
          | none => none
          | some s3 =>
            match matchLiteral strType s3 with
            | none => none
            | some s4 =>
              match matchSpaces1 s4 with
              | none => none
              | some s5 =>
                let nm := s5.takeWhile isWordChar
                if nm = [] then none
                else
                  match s5.drop nm.length with
                  | 40 :: s6 =>
                    match matchParen [] s6 with
                    | none => none
                    | some argStr => some (nm, argStr)
                  | _ => none
    else none
  | _ => none

/-- Fatal error conditions of the pipeline (`fatalf` / `log.Fatal` calls). -/
inductive Err where
  | multipleTemplateDefinitions
  | noTemplateDefinition
  | wrongNumberOfArguments
  | unexpectedSpecsConstVar
  | unexpectedSpecsType
  | specAssertionFailure
  | unknownDecl
  | noDefinitionForTemplateType
deriving DecidableEq

/-- The comment scan of `parse`: find the template annotation among all
comments, failing on zero or on more than one match.  The accumulator holds
the first match, as the pair (template name, formal parameters). -/
def findTemplateDef : List Str → Option (Str × List Str) →
    Except Err (Option (Str × List Str))
  | [], acc => .ok acc
  | c :: rest, acc =>
    match matchTemplateType c with
    | some (n, argStr) =>
      match acc with
      | some _ => .error .multipleTemplateDefinitions
      | none => findTemplateDef rest (some (n, parseArgs argStr))
    | none => findTemplateDef rest acc

/-- Directive scanner: extract `(templateName, templateArgs)` from the
file's comments, or fail fatally. -/
def scanComments (comments : List Str) : Except Err (Str × List Str) :=
  match findTemplateDef comments none with
  | .error e => .error e
  | .ok none => .error .noTemplateDefinition
  | .ok (some r) => .ok r

/-- Tokens a Go `ast.GenDecl` can carry (`import`, `const`, `var`, `type`),
plus a constructor for any other token, handled by the `default` branch of
the classifier's switch. -/
inductive GenTok where
  | timport
  | tconst
  | tvar
  | ttype
  | tother
deriving DecidableEq

/-- Syntax-tree fragments: identifier nodes (subject to rewriting),
non-identifier atoms, and branching structure. -/
inductive Node where
  | ident : Str → Node
  | lit : Str → Node
  | seq : Node → Node → Node
  | nilN : Node
deriving DecidableEq

/-- Specifications inside a `GenDecl`: import specs (mirroring
`ast.ImportSpec`: an optional alias identifier and the path string
literal), value specs (`const`/`var`, possibly binding several names),
type specs. -/
inductive Spec where
  | importSpec : Option Str → Str → Spec
  | valueSpec : List Str → Node → Spec
  | typeSpec : Str → Node → Spec
deriving DecidableEq

/-- Top-level declarations: general declarations, function declarations
(with an optional receiver), and any other `ast.Decl` shape. -/
inductive Decl where
  | genDecl : GenTok → List Spec → Decl
  | funcDecl : Option Node → Str → Node → Decl
  | badDecl : Decl
deriving DecidableEq

/-- `templateInstantiation` from `main.go`. -/
structure TemplateInst where
  Package : Str
  Name : Str
  Args : List Str
  NewPackage : Str
  Dir : Str
deriving DecidableEq

/-- A parsed source file: package clause, comments, top-level
declarations. -/
structure File where
  pkgName : Str
  comments : List Str
  decls : List Decl
deriving DecidableEq

/-- Well-formedness guaranteed by `go/parser`: each `GenDecl`'s spec list
matches its token, the token is one of the four legal ones, and there are
no `BadDecl`s (a parse error is fatal before `parse` runs). -/
def Spec.isImportS : Spec → Bool
  | .importSpec _ _ => true
  | _ => false

/-- Is this spec an import spec without an alias identifier (the typical
`import "path"` form)? -/
def Spec.isBareImport : Spec → Bool
  | .importSpec none _ => true
  | _ => false

/-- Is this spec a value (`const`/`var`) spec? -/
def Spec.isValueS : Spec → Bool
  | .valueSpec _ _ => true
  | _ => false

/-- Is this spec a type spec? -/
def Spec.isTypeS : Spec → Bool
  | .typeSpec _ _ => true
  | _ => false

/-- Parser-guaranteed shape of a top-level declaration. -/
def Decl.wf : Decl → Bool
  | .genDecl .timport specs => specs.all Spec.isImportS
  | .genDecl .tconst specs => specs.all Spec.isValueS
  | .genDecl .tvar specs => specs.all Spec.isValueS
  | .genDecl .ttype specs => specs.all Spec.isTypeS
  | .genDecl .tother _ => false
  | .funcDecl _ _ _ => true
  | .badDecl => false

/-- Names a spec binds in the package block. -/
def Spec.topNames : Spec → List Str
  | .importSpec _ _ => []
  | .valueSpec names _ => names
  | .typeSpec n _ => [n]

/-- Names bound by the spec list of a general declaration. -/
def specsTopNames : List Spec → List Str
  | [] => []
  | s :: rest => s.topNames ++ specsTopNames rest

/-- Package-block identifiers a top-level declaration binds.  Methods
(functions with a receiver) bind no package-block identifier in Go. -/
def Decl.topNames : Decl → List Str
  | .genDecl _ specs => specsTopNames specs
  | .funcDecl (some _) _ _ => []
  | .funcDecl none n _ => [n]
  | .badDecl => []

/-- All package-block identifiers of a declaration list. -/
def topLevelNames : List Decl → List Str
  | [] => []
  | d :: rest => d.topNames ++ topLevelNames rest

/-- One step of the Declaration Classifier (the body of the loop over
`f.Decls` in `parse`): the names this declaration registers for mangling,
and whether the declaration is removed as a template stub.  Imports are
ignored; `const`/`var` and `type` blocks must have exactly one spec (else
`log.Fatal`); a `GenDecl` with an unrecognized token is only logged and
kept; an unknown declaration shape is fatal. -/
def classifyDecl (templateArgs : List Str) : Decl → Except Err (List Str × Bool)
  | .genDecl .timport _ => .ok ([], false)
  | .genDecl .tconst specs =>
    match specs with
    | [Spec.valueSpec names _] => .ok (names, false)
    | [_] => .error .specAssertionFailure
    | _ => .error .unexpectedSpecsConstVar
  | .genDecl .tvar specs =>
    match specs with
    | [Spec.valueSpec names _] => .ok (names, false)
    | [_] => .error .specAssertionFailure
    | _ => .error .unexpectedSpecsConstVar
  | .genDecl .ttype specs =>
    match specs with
    | [Spec.typeSpec n _] => .ok ([n], containsString n templateArgs)
    | [_] => .error .specAssertionFailure
    | _ => .error .unexpectedSpecsType
  | .genDecl .tother _ => .ok ([], false)
  | .funcDecl (some _) _ _ => .ok ([], false)
  | .funcDecl none n _ => .ok ([n], containsString n templateArgs)
  | .badDecl => .error .unknownDecl

/-- The Declaration Classifier: collect `namesToMangle` in source order and
the declaration list with stubs removed, or abort on the first fatal
declaration. -/
def classify (templateArgs : List Str) : List Decl → Except Err (List Str × List Decl)
  | [] => .ok ([], [])
  | d :: rest =>
    match classifyDecl templateArgs d with
    | .error e => .error e
    | .ok (ns, remove) =>
      match classify templateArgs rest with
      | .error e => .error e
      | .ok (ns2, ds2) => .ok (ns ++ ns2, if remove then ds2 else d :: ds2)

/-- `addMapping` from `main.go` (the replacement-name computation): if
`name` does not contain `templateName` then suffix `tiName`, otherwise
replace the first occurrence of `templateName` by `tiName`; then, if the
instantiation is not public but the replacement is exported, lower-case the
replacement's first character. -/
def addMappingGo (templateName tiName : Str) (newIsPublic : Bool) (name : Str) : Str :=
  let replacementName :=
    if !strContains templateName name then name ++ tiName
    else replaceFirst templateName tiName name
  if !newIsPublic && isExportedStr replacementName then lowerFirst replacementName
  else replacementName

/-- The Mapping Builder's naming policy as the specification words it: if
`name` textually contains the template's formal name, the replacement is
`name` with the first occurrence of the formal name replaced by the
instantiation name, otherwise `name` with the instantiation name appended
as a suffix; if the instantiation name is non-exported and the computed
replacement starts with an upper-case letter, only the first character of
the replacement is lower-cased. -/
def addMappingSpec (formalName instName name : Str) : Str :=
  let repl :=
    if strContains formalName name then replaceFirst formalName instName name
    else name ++ instName
  if !isExportedStr instName && isExportedStr repl then lowerFirst repl
  else repl

/-- The loop `for i := range ti.Args { mappings[templateArgs[i]] = ti.Args[i] }`,
with the two argument lists zipped (their lengths are equal at this point). -/
def paramLoop : List (Str × Str) → List (Str × Str) → List (Str × Str)
  | [], m => m
  | p :: rest, m => paramLoop rest (mapSet m p.1 p.2)

/-- The loop over `namesToMangle`: register a mapping for every name not
yet mapped (first registration wins), always re-registering the template
name itself and recording that it was found. -/
def mangleLoop (templateName tiName : Str) (newIsPublic : Bool) :
    List Str → List (Str × Str) → Bool → (List (Str × Str) × Bool)
  | [], m, found => (m, found)
  | name :: rest, m, found =>
    if name = templateName then
      mangleLoop templateName tiName newIsPublic rest
        (mapSet m name (addMappingGo templateName tiName newIsPublic name)) true
    else if (lookupStr m name).isSome then
      mangleLoop templateName tiName newIsPublic rest m found
    else
      mangleLoop templateName tiName newIsPublic rest
        (mapSet m name (addMappingGo templateName tiName newIsPublic name)) found

/-- The Mapping Builder: map each formal parameter to its positional
concrete argument, then run the mangle loop; if the template name was never
a rename candidate the run aborts ("No definition for template type"). -/
def buildMappings (templateName tiName : Str) (newIsPublic : Bool)
    (tiArgs templateArgs namesToMangle : List Str) : Except Err (List (Str × Str)) :=
  match mangleLoop templateName tiName newIsPublic namesToMangle
      (paramLoop (templateArgs.zip tiArgs) []) false with
  | (m, true) => .ok m
  | (_, false) => .error .noDefinitionForTemplateType

/-- Exact-name substitution of a single mapping on one identifier. -/
def subst1 (k v x : Str) : Str := if x = k then v else x

/-- Apply a sequence of single-name substitutions to one identifier (the
cumulative effect, on that identifier, of the per-mapping rewrite passes). -/
def foldName : List (Str × Str) → Str → Str
  | [], x => x
  | p :: rest, x => foldName rest (subst1 p.1 p.2 x)

/-- Modelled from the spec: the Identifier Rewriter (`rewriteFile`, not
among the examined sources) applies a mapping as an exact-name structural
substitution over every identifier node of the tree. -/
def Node.mapIdents (f : Str → Str) : Node → Node
  | .ident s => .ident (f s)
  | .lit s => .lit s
  | .seq a b => .seq (a.mapIdents f) (b.mapIdents f)
  | .nilN => .nilN

/-- Identifier rewriting inside one spec: an import's path is a string
literal and is untouched, but its optional alias is a bare identifier
node and is rewritten like any other identifier occurrence. -/
def Spec.mapIdents (f : Str → Str) : Spec → Spec
  | .importSpec al p => .importSpec (al.map f) p
  | .valueSpec names body => .valueSpec (names.map f) (body.mapIdents f)
  | .typeSpec n body => .typeSpec (f n) (body.mapIdents f)

/-- Identifier rewriting over a whole declaration: declaration names,
receiver clauses and bodies alike. -/
def Decl.mapIdents (f : Str → Str) : Decl → Decl
  | .genDecl tok specs => .genDecl tok (specs.map (Spec.mapIdents f))
  | .funcDecl recv n body =>
    .funcDecl (recv.map (Node.mapIdents f)) (f n) (body.mapIdents f)
  | .badDecl => .badDecl

/-- Modelled from the spec: one whole-tree rewrite pass per mapping, in the
given iteration order (`for name, replacement := range mappings`). -/
def rewriteDecls : List (Str × Str) → List Decl → List Decl
  | [], ds => ds
  | p :: rest, ds => rewriteDecls rest (ds.map (Decl.mapIdents (subst1 p.1 p.2)))

/-- Modelled from the spec: the per-mapping rewrite passes on a bare
syntax tree. -/
def Node.rewriteAll : List (Str × Str) → Node → Node
  | [], t => t
  | p :: rest, t => Node.rewriteAll rest (t.mapIdents (subst1 p.1 p.2))

/-- Stages of `templateInstantiation.parse` up to and including the
Mapping Builder: scan comments, check the argument count, classify
declarations, build the name mapping.  Returns the mapping and the
post-stub-removal declaration list. -/
def pipeline (ti : TemplateInst) (f : File) : Except Err (List (Str × Str) × List Decl) :=
  match scanComments f.comments with
  | .error e => .error e
  | .ok (templateName, templateArgs) =>
    if templateArgs.length ≠ ti.Args.length then .error .wrongNumberOfArguments
    else
      match classify templateArgs f.decls with
      | .error e => .error e
      | .ok (namesToMangle, newDecls) =>
        match buildMappings templateName ti.Name (isExportedStr ti.Name)
            ti.Args templateArgs namesToMangle with
        | .error e => .error e
        | .ok m => .ok (m, newDecls)

/-- `"gotemplate_" + ti.Name + ".go"`. -/
def outputFileName (ti : TemplateInst) : Str :=
  str "gotemplate_" ++ ti.Name ++ str ".go"

/-- The whole of `templateInstantiation.parse` as a function from the
request, the parsed file, and the (unspecified) iteration order of the Go
map `mappings`, to the written output: the output file name and the
emitted tree (package clause set to the target package, declarations
rewritten by every mapping).  A fatal condition yields an error and no
output is written.  Faithful runs supply an `ord` that enumerates exactly
the mapping produced by `pipeline` (Go map iteration order is
unspecified), which theorems state as a permutation hypothesis. -/
def parseModel (ti : TemplateInst) (f : File) (ord : List (Str × Str)) :
    Except Err (Str × File) :=
  match pipeline ti f with
  | .error e => .error e
  | .ok (_, newDecls) =>
    .ok (outputFileName ti,
      { pkgName := ti.NewPackage
        comments := f.comments
        decls := rewriteDecls ord newDecls })

/-- Package-block identifiers of the output of a run (empty on a fatal
run). -/
def resultTopNames (r : Except Err (Str × File)) : List Str :=
  match r with
  | .ok pr => topLevelNames pr.2.decls
  | .error _ => []

/-- Is `d` a type declaration binding the name `p`? -/
def Decl.isTypeDeclNamed (p : Str) : Decl → Bool
  | .genDecl .ttype specs =>
    specs.any (fun s =>
      match s with
      | .typeSpec n _ => n == p
      | _ => false)
  | _ => false

/-- Is `d` a receiver-less function declaration named `p`? -/
def Decl.isPlainFuncNamed (p : Str) : Decl → Bool
  | .funcDecl none n _ => n == p
  | _ => false

/-- A typical request: instantiate template `Set` as exported `IntSet` with
argument `int` into package `mypkg`. -/
def tiEx : TemplateInst :=
  { Package := str "set", Name := str "IntSet", Args := [str "int"],
    NewPackage := str "mypkg", Dir := [] }

/-- A typical template file: the annotation, the stub `type A`, the
template type `Set`, a constructor `NewSet`, a method, and an import. -/
def fEx : File :=
  { pkgName := str "set"
    comments := [str "// template type Set(A)"]
    decls :=
      [Decl.genDecl .timport [Spec.importSpec none (str "fmt")],
       Decl.genDecl .ttype [Spec.typeSpec (str "A") Node.nilN],
       Decl.genDecl .ttype [Spec.typeSpec (str "Set") (Node.ident (str "A"))],
       Decl.funcDecl none (str "NewSet") (Node.ident (str "Set")),
       Decl.funcDecl (some (Node.ident (str "Set"))) (str "Len") Node.nilN] }

/-- The mapping `pipeline` builds for `tiEx`/`fEx`. -/
def mEx : List (Str × Str) :=
  [(str "A", str "int"), (str "Set", str "IntSet"), (str "NewSet", str "NewIntSet")]

/-- The declaration list `pipeline` keeps for `tiEx`/`fEx` (stub removed). -/
def ndsEx : List Decl :=
  [Decl.genDecl .timport [Spec.importSpec none (str "fmt")],
   Decl.genDecl .ttype [Spec.typeSpec (str "Set") (Node.ident (str "A"))],
   Decl.funcDecl none (str "NewSet") (Node.ident (str "Set")),
   Decl.funcDecl (some (Node.ident (str "Set"))) (str "Len") Node.nilN]

/-- A lower-case (non-exported) instantiation whose concrete argument is
an exported name. -/
def tiC4 : TemplateInst :=
  { Package := str "set", Name := str "intSet", Args := [str "Int"],
    NewPackage := str "mypkg", Dir := [] }

/-- A template file declaring a `var` named exactly after the formal
parameter `A`: `const`/`var` declarations are never removed as stubs. -/
def fC4 : File :=
  { pkgName := str "set"
    comments := [str "// template type Set(A)"]
    decls :=
      [Decl.genDecl .ttype [Spec.typeSpec (str "Set") Node.nilN],
       Decl.genDecl .tvar [Spec.valueSpec [str "A"] Node.nilN]] }

/-- The mapping built for `tiC4`/`fC4`. -/
def mC4 : List (Str × Str) :=
  [(str "A", str "Int"), (str "Set", str "intSet")]

/-- The declarations kept for `tiC4`/`fC4`. -/
def ndsC4 : List Decl := fC4.decls

/-- A request whose instantiation name also occurs as a top-level
identifier of the template, producing a mapping in which one mapping's
replacement (`IntSet`) is another mapping's original name. -/
def tiC8 : TemplateInst :=
  { Package := str "set", Name := str "IntSet", Args := [str "int"],
    NewPackage := str "mypkg", Dir := [] }

/-- A template file declaring both `Set` and `IntSet` at top level. -/
def fC8 : File :=
  { pkgName := str "set"
    comments := [str "// template type Set(A)"]
    decls :=
      [Decl.genDecl .ttype [Spec.typeSpec (str "Set") Node.nilN],
       Decl.genDecl .ttype [Spec.typeSpec (str "IntSet") Node.nilN]] }

/-- The mapping built for `tiC8`/`fC8`: the replacement of `Set` is the
original name of the `IntSet` mapping, so sequential rewriting passes are
order-dependent. -/
def mC8 : List (Str × Str) :=
  [(str "A", str "int"), (str "Set", str "IntSet"), (str "IntSet", str "IntIntSet")]

/-- The declarations kept for `tiC8`/`fC8`. -/
def ndsC8 : List Decl := fC8.decls

/-- The emitted file for `tiEx`/`fEx` (package renamed, identifiers
rewritten by every mapping in construction order). -/
def outEx : File :=
  { pkgName := tiEx.NewPackage
    comments := fEx.comments
    decls := rewriteDecls mEx ndsEx }

/-- The emitted file for `tiC4`/`fC4`. -/
def outC4 : File :=
  { pkgName := tiC4.NewPackage
    comments := fC4.comments
    decls := rewriteDecls mC4 ndsC4 }

/-- A request supplying two concrete arguments to a one-parameter
template. -/
def tiC3 : TemplateInst :=
  { Package := str "set", Name := str "IntPair", Args := [str "int", str "string"],
    NewPackage := str "mypkg", Dir := [] }

/-- A template file whose declaration list would be fatal to classify
(the wrong-argument-count check must fire first). -/
def fC3 : File :=
  { pkgName := str "set"
    comments := [str "// template type Set(A)"]
    decls := [Decl.badDecl] }

/-- A degenerate request whose instantiation name equals the template's
formal parameter `A` itself. -/
def tiC2 : TemplateInst :=
  { Package := str "set", Name := str "A", Args := [str "int"],
    NewPackage := str "mypkg", Dir := [] }

/-- A minimal template for `tiC2`: the annotation and the template type
`Set`. -/
def fC2 : File :=
  { pkgName := str "set"
    comments := [str "// template type Set(A)"]
    decls := [Decl.genDecl .ttype [Spec.typeSpec (str "Set") Node.nilN]] }

/-- The mapping built for `tiC2`/`fC2`: the replacement of `Set` is the
formal parameter name `A` itself. -/
def mC2 : List (Str × Str) := [(str "A", str "int"), (str "Set", str "A")]

/-- The declarations kept for `tiC2`/`fC2`. -/
def ndsC2 : List Decl := fC2.decls

/-- The emitted file for `tiC2`/`fC2` under the construction iteration
order: the type declaration `Set` is renamed to `A`. -/
def outC2 : File :=
  { pkgName := tiC2.NewPackage
    comments := fC2.comments
    decls := rewriteDecls mC2 ndsC2 }

/-- A request instantiating `Set` as `IntSet` with argument `int`,
against a template containing an aliased import. -/
def tiC10 : TemplateInst :=
  { Package := str "set", Name := str "IntSet", Args := [str "int"],
    NewPackage := str "mypkg", Dir := [] }

/-- A template file containing the aliased import `import A "fmt"`,
whose alias identifier equals the formal parameter `A`. -/
def fC10 : File :=
  { pkgName := str "set"
    comments := [str "// template type Set(A)"]
    decls :=
      [Decl.genDecl .timport [Spec.importSpec (some (str "A")) (str "fmt")],
       Decl.genDecl .ttype [Spec.typeSpec (str "Set") Node.nilN]] }

/-- The mapping built for `tiC10`/`fC10`. -/
def mC10 : List (Str × Str) :=
  [(str "A", str "int"), (str "Set", str "IntSet")]

/-- The declarations kept for `tiC10`/`fC10`. -/
def ndsC10 : List Decl := fC10.decls

/-- The emitted file for `tiC10`/`fC10`: the import's alias identifier is
rewritten `A -> int` like any other identifier occurrence. -/
def outC10 : File :=
  { pkgName := tiC10.NewPackage
    comments := fC10.comments
    decls := rewriteDecls mC10 ndsC10 }

/-! ### Rewriting algebra -/

theorem nodeMapIdents_id (t : Node) : t.mapIdents (fun x => x) = t := by
  induction t with
  | ident s => rfl
  | lit s => rfl
  | seq a b iha ihb => simp [Node.mapIdents, iha, ihb]
  | nilN => rfl

theorem specMapIdents_id (s : Spec) : s.mapIdents (fun x => x) = s := by
  cases s with
  | importSpec al p => simp [Spec.mapIdents]
  | valueSpec names body => simp [Spec.mapIdents, nodeMapIdents_id]
  | typeSpec n body => simp [Spec.mapIdents, nodeMapIdents_id]

theorem specs_mapIdents_id (specs : List Spec) :
    specs.map (Spec.mapIdents (fun x => x)) = specs := by
  induction specs with
  | nil => rfl
  | cons s rest ih => simp [ih, specMapIdents_id]

theorem declMapIdents_id (d : Decl) : d.mapIdents (fun x => x) = d := by
  cases d with
  | genDecl tok specs => simp [Decl.mapIdents, specs_mapIdents_id]
  | funcDecl recv n body =>
    cases recv <;> simp [Decl.mapIdents, nodeMapIdents_id]
  | badDecl => rfl

theorem nodeMapIdents_comp (f g : Str → Str) (t : Node) :
    (t.mapIdents f).mapIdents g = t.mapIdents (fun x => g (f x)) := by
  induction t with
  | ident s => rfl
  | lit s => rfl
  | seq a b iha ihb => simp [Node.mapIdents, iha, ihb]
  | nilN => rfl

theorem specMapIdents_comp (f g : Str → Str) (s : Spec) :
    (s.mapIdents f).mapIdents g = s.mapIdents (fun x => g (f x)) := by
  cases s with
  | importSpec al p =>
    show Spec.importSpec ((al.map f).map g) p = Spec.importSpec (al.map (fun x => g (f x))) p
    rw [Option.map_map]
    rfl
  | valueSpec names body => simp [Spec.mapIdents, nodeMapIdents_comp]
  | typeSpec n body => simp [Spec.mapIdents, nodeMapIdents_comp]

theorem specs_mapIdents_comp (f g : Str → Str) (specs : List Spec) :
    (specs.map (Spec.mapIdents f)).map (Spec.mapIdents g) =
      specs.map (Spec.mapIdents (fun x => g (f x))) := by
  induction specs with
  | nil => rfl
  | cons s rest ih => simp [ih, specMapIdents_comp]

theorem declMapIdents_comp (f g : Str → Str) (d : Decl) :
    (d.mapIdents f).mapIdents g = d.mapIdents (fun x => g (f x)) := by
  cases d with
  | genDecl tok specs =>
    show Decl.genDecl tok ((specs.map (Spec.mapIdents f)).map (Spec.mapIdents g)) =
      Decl.genDecl tok (specs.map (Spec.mapIdents (fun x => g (f x))))
    rw [specs_mapIdents_comp]
  | funcDecl recv n body =>
    cases recv <;> simp [Decl.mapIdents, nodeMapIdents_comp]
  | badDecl => rfl

theorem decls_mapIdents_comp (f g : Str → Str) (ds : List Decl) :
    (ds.map (Decl.mapIdents f)).map (Decl.mapIdents g) =
      ds.map (Decl.mapIdents (fun x => g (f x))) := by
  induction ds with
  | nil => rfl
  | cons d rest ih => simp [ih, declMapIdents_comp]

theorem foldName_cons (p : Str × Str) (rest : List (Str × Str)) (x : Str) :
    foldName (p :: rest) x = foldName rest (subst1 p.1 p.2 x) := rfl

/-- The sequence of per-mapping rewrite passes acts on a declaration list
as a single pointwise transformation of every identifier occurrence. -/
theorem rewriteDecls_eq_map (ps : List (Str × Str)) (ds : List Decl) :
    rewriteDecls ps ds = ds.map (Decl.mapIdents (foldName ps)) := by
  induction ps generalizing ds with
  | nil =>
    show ds = ds.map (Decl.mapIdents (foldName []))
    have h1 : ds.map (Decl.mapIdents (foldName [])) = ds := by
      have : foldName [] = fun x => x := rfl
      rw [this]
      induction ds with
      | nil => rfl
      | cons d rest ih => simp [ih, declMapIdents_id]
    exact h1.symm
  | cons p rest ih =>
    show rewriteDecls rest (ds.map (Decl.mapIdents (subst1 p.1 p.2))) =
      ds.map (Decl.mapIdents (foldName (p :: rest)))
    rw [ih, decls_mapIdents_comp]
    rfl

/-- The per-mapping rewrite passes on a bare tree act pointwise on every
identifier occurrence. -/
theorem rewriteAll_eq_mapIdents (ps : List (Str × Str)) (t : Node) :
    Node.rewriteAll ps t = t.mapIdents (foldName ps) := by
  induction ps generalizing t with
  | nil => exact (nodeMapIdents_id t).symm
  | cons p rest ih =>
    show Node.rewriteAll rest (t.mapIdents (subst1 p.1 p.2)) =
      t.mapIdents (foldName (p :: rest))
    rw [ih, nodeMapIdents_comp]
    rfl

/-! ### Top-level names under rewriting -/

theorem specTopNames_mapIdents (f : Str → Str) (s : Spec) :
    (s.mapIdents f).topNames = s.topNames.map f := by
  cases s <;> simp [Spec.mapIdents, Spec.topNames]

theorem specsTopNames_map (f : Str → Str) (specs : List Spec) :
    specsTopNames (specs.map (Spec.mapIdents f)) = (specsTopNames specs).map f := by
  induction specs with
  | nil => rfl
  | cons s rest ih => simp [specsTopNames, ih, specTopNames_mapIdents]

theorem declTopNames_mapIdents (f : Str → Str) (d : Decl) :
    (d.mapIdents f).topNames = d.topNames.map f := by
  cases d with
  | genDecl tok specs => simp [Decl.mapIdents, Decl.topNames, specsTopNames_map]
  | funcDecl recv n body =>
    cases recv <;> simp [Decl.mapIdents, Decl.topNames, Option.map]
  | badDecl => rfl

theorem topLevelNames_map (f : Str → Str) (ds : List Decl) :
    topLevelNames (ds.map (Decl.mapIdents f)) = (topLevelNames ds).map f := by
  induction ds with
  | nil => rfl
  | cons d rest ih => simp [topLevelNames, ih, declTopNames_mapIdents]

theorem specsTopNames_of_imports (specs : List Spec)
    (h : specs.all Spec.isImportS = true) : specsTopNames specs = [] := by
  induction specs with
  | nil => rfl
  | cons s rest ih =>
    simp only [List.all_cons, Bool.and_eq_true] at h
    cases s with
    | importSpec al p => simp [specsTopNames, Spec.topNames, ih h.2]
    | valueSpec names body => simp [Spec.isImportS] at h
    | typeSpec n body => simp [Spec.isImportS] at h

theorem specs_map_of_bare_imports (f : Str → Str) (specs : List Spec)
    (h : specs.all Spec.isBareImport = true) : specs.map (Spec.mapIdents f) = specs := by
  induction specs with
  | nil => rfl
  | cons s rest ih =>
    simp only [List.all_cons, Bool.and_eq_true] at h
    cases s with
    | importSpec al p =>
      cases al with
      | none => simp [Spec.mapIdents, ih h.2]
      | some a => simp [Spec.isBareImport] at h
    | valueSpec names body => simp [Spec.isBareImport] at h
    | typeSpec n body => simp [Spec.isBareImport] at h

/-! ### Classifier lemmas -/

theorem classifyDecl_topNames (templateArgs : List Str) (d : Decl)
    (ns : List Str) (rm : Bool) (hwf : d.wf = true)
    (h : classifyDecl templateArgs d = .ok (ns, rm)) :
    ∀ x ∈ d.topNames, x ∈ ns := by
  cases d with
  | genDecl tok specs =>
    cases tok with
    | timport =>
      intro x hx
      rw [Decl.topNames, specsTopNames_of_imports specs hwf] at hx
      exact absurd hx (List.not_mem_nil x)
    | tconst =>
      match specs with
      | [Spec.valueSpec names body] =>
        injection h with h1
        injection h1 with h2 h3
        subst h2
        intro x hx
        simpa [Decl.topNames, specsTopNames, Spec.topNames] using hx
      | [Spec.importSpec al p] => exact absurd h (by simp [classifyDecl])
      | [Spec.typeSpec n body] => exact absurd h (by simp [classifyDecl])
      | [] => exact absurd h (by simp [classifyDecl])
      | _ :: _ :: _ => exact absurd h (by simp [classifyDecl])
    | tvar =>
      match specs with
      | [Spec.valueSpec names body] =>
        injection h with h1
        injection h1 with h2 h3
        subst h2
        intro x hx
        simpa [Decl.topNames, specsTopNames, Spec.topNames] using hx
      | [Spec.importSpec al p] => exact absurd h (by simp [classifyDecl])
      | [Spec.typeSpec n body] => exact absurd h (by simp [classifyDecl])
      | [] => exact absurd h (by simp [classifyDecl])
      | _ :: _ :: _ => exact absurd h (by simp [classifyDecl])
    | ttype =>
      match specs with
      | [Spec.typeSpec n body] =>
        injection h with h1
        injection h1 with h2 h3
        subst h2
        intro x hx
        simpa [Decl.topNames, specsTopNames, Spec.topNames] using hx
      | [Spec.importSpec al p] => exact absurd h (by simp [classifyDecl])
      | [Spec.valueSpec names body] => exact absurd h (by simp [classifyDecl])
      | [] => exact absurd h (by simp [classifyDecl])
      | _ :: _ :: _ => exact absurd h (by simp [classifyDecl])
    | tother => exact absurd hwf (by simp [Decl.wf])
  | funcDecl recv n body =>
    cases recv with
    | none =>
      injection h with h1
      injection h1 with h2 h3
      subst h2
      intro x hx
      simpa [Decl.topNames] using hx
    | some r =>
      intro x hx
      simp [Decl.topNames] at hx
  | badDecl => exact absurd h (by simp [classifyDecl])

theorem classify_topNames_sub (templateArgs : List Str) :
    ∀ (l : List Decl) (ns : List Str) (nds : List Decl),
      (∀ d ∈ l, d.wf = true) → classify templateArgs l = .ok (ns, nds) →
      ∀ x ∈ topLevelNames nds, x ∈ ns := by
  intro l
  induction l with
  | nil =>
    intro ns nds _ h x hx
    injection h with h1
    injection h1 with h2 h3
    subst h3
    exact absurd hx (List.not_mem_nil x)
  | cons d rest ih =>
    intro ns nds hwf h x hx
    rw [classify] at h
    cases h1 : classifyDecl templateArgs d with
    | error e => rw [h1] at h; exact absurd h (by simp)
    | ok pr =>
      obtain ⟨ns1, rm⟩ := pr
      rw [h1] at h
      cases h2 : classify templateArgs rest with
      | error e => rw [h2] at h; exact absurd h (by simp)
      | ok pr2 =>
        obtain ⟨ns2, ds2⟩ := pr2
        rw [h2] at h
        simp only at h
        injection h with h3
        injection h3 with h4 h5
        subst h4
        cases rm with
        | true =>
          subst h5
          have := ih ns2 ds2 (fun d hd => hwf d (List.mem_cons_of_mem _ hd)) h2 x hx
          exact List.mem_append_right ns1 this
        | false =>
          subst h5
          simp only [topLevelNames] at hx
          rcases List.mem_append.mp hx with hl | hr
          · exact List.mem_append_left ns2
              (classifyDecl_topNames templateArgs d ns1 false
                (hwf d (List.mem_cons_self d rest)) h1 x hl)
          · exact List.mem_append_right ns1
              (ih ns2 ds2 (fun d hd => hwf d (List.mem_cons_of_mem _ hd)) h2 x hr)

theorem classify_keeps (templateArgs : List Str) :
    ∀ (l : List Decl) (ns : List Str) (nds : List Decl) (d : Decl) (nsd : List Str),
      classify templateArgs l = .ok (ns, nds) → d ∈ l →
      classifyDecl templateArgs d = .ok (nsd, false) → d ∈ nds := by
  intro l
  induction l with
  | nil => intro ns nds d nsd _ hd; exact absurd hd (List.not_mem_nil d)
  | cons a rest ih =>
    intro ns nds d nsd h hd hcd
    rw [classify] at h
    cases h1 : classifyDecl templateArgs a with
    | error e => rw [h1] at h; exact absurd h (by simp)
    | ok pr =>
      obtain ⟨ns1, rm⟩ := pr
      rw [h1] at h
      cases h2 : classify templateArgs rest with
      | error e => rw [h2] at h; exact absurd h (by simp)
      | ok pr2 =>
        obtain ⟨ns2, ds2⟩ := pr2
        rw [h2] at h
        simp only at h
        injection h with h3
        injection h3 with h4 h5
        rcases List.mem_cons.mp hd with rfl | hmem
        · rw [h1] at hcd
          injection hcd with h6
          injection h6 with h7 h8
          subst h8
          subst h5
          exact List.mem_cons_self d ds2
        · have hds2 := ih ns2 ds2 d nsd h2 hmem hcd
          subst h5
          cases rm with
          | true => exact hds2
          | false => exact List.mem_cons_of_mem a hds2

/-! ### Mapping-table lemmas -/

theorem lookupStr_isSome_mem (m : List (Str × Str)) (x : Str)
    (h : (lookupStr m x).isSome = true) : x ∈ m.map Prod.fst := by
  induction m with
  | nil => simp [lookupStr] at h
  | cons p rest ih =>
    obtain ⟨k, v⟩ := p
    by_cases hx : x = k
    · subst hx; exact List.mem_cons_self _ _
    · rw [lookupStr, if_neg hx] at h
      exact List.mem_cons_of_mem _ (ih h)

theorem lookupStr_none_not_mem (m : List (Str × Str)) (x : Str)
    (h : lookupStr m x = none) : x ∉ m.map Prod.fst := by
  induction m with
  | nil => simp
  | cons p rest ih =>
    obtain ⟨k, v⟩ := p
    by_cases hx : x = k
    · subst hx; rw [lookupStr, if_pos rfl] at h; exact absurd h (by simp)
    · rw [lookupStr, if_neg hx] at h
      simp only [List.map_cons, List.mem_cons]
      rintro (h1 | h1)
      · exact hx h1
      · exact ih h h1

theorem keys_overwrite (m : List (Str × Str)) (k v : Str) :
    (m.map (fun p => if p.1 = k then (k, v) else p)).map Prod.fst = m.map Prod.fst := by
  induction m with
  | nil => rfl
  | cons p rest ih =>
    simp only [List.map_cons, ih]
    by_cases h : p.1 = k
    · rw [if_pos h]; simp [h]
    · rw [if_neg h]

theorem mem_keys_mapSet_self (m : List (Str × Str)) (k v : Str) :
    k ∈ (mapSet m k v).map Prod.fst := by
  unfold mapSet
  cases hl : lookupStr m k with
  | none => simp
  | some w =>
    rw [keys_overwrite]
    exact lookupStr_isSome_mem m k (by rw [hl]; rfl)

theorem mem_keys_mapSet_of (m : List (Str × Str)) (k v x : Str)
    (hx : x ∈ m.map Prod.fst) : x ∈ (mapSet m k v).map Prod.fst := by
  unfold mapSet
  cases hl : lookupStr m k with
  | none => simp only [List.map_append]; exact List.mem_append_left _ hx
  | some w => rw [keys_overwrite]; exact hx

theorem nodupKeys_mapSet (m : List (Str × Str)) (k v : Str)
    (h : (m.map Prod.fst).Nodup) : ((mapSet m k v).map Prod.fst).Nodup := by
  unfold mapSet
  cases hl : lookupStr m k with
  | none =>
    simp only [List.map_append, List.map_cons, List.map_nil]
    rw [List.nodup_append]
    exact ⟨h, List.nodup_singleton k,
      by intro x hx hk; simp at hk; subst hk; exact lookupStr_none_not_mem m x hl hx⟩
  | some w => rw [keys_overwrite]; exact h

theorem values_mapSet_sub (m : List (Str × Str)) (k v x : Str)
    (hx : x ∈ (mapSet m k v).map Prod.snd) : x ∈ m.map Prod.snd ∨ x = v := by
  unfold mapSet at hx
  cases hl : lookupStr m k with
  | none =>
    rw [hl] at hx
    simp only [List.map_append, List.map_cons, List.map_nil] at hx
    rcases List.mem_append.mp hx with h | h
    · exact Or.inl h
    · simp at h; exact Or.inr h
  | some w =>
    rw [hl] at hx
    rw [List.map_map] at hx
    rcases List.mem_map.mp hx with ⟨p, hp, hpx⟩
    by_cases hk : p.1 = k
    · right
      simp only [Function.comp, if_pos hk] at hpx
      exact hpx.symm
    · left
      simp only [Function.comp, if_neg hk] at hpx
      exact hpx ▸ List.mem_map_of_mem Prod.snd hp

theorem paramLoop_nodupKeys : ∀ (ps m : List (Str × Str)),
    (m.map Prod.fst).Nodup → ((paramLoop ps m).map Prod.fst).Nodup := by
  intro ps
  induction ps with
  | nil => intro m h; exact h
  | cons p rest ih => intro m h; exact ih _ (nodupKeys_mapSet m p.1 p.2 h)

theorem paramLoop_values (P : Str → Prop) : ∀ (ps m : List (Str × Str)),
    (∀ v ∈ m.map Prod.snd, P v) → (∀ p ∈ ps, P p.2) →
    ∀ v ∈ (paramLoop ps m).map Prod.snd, P v := by
  intro ps
  induction ps with
  | nil => intro m hm _ v hv; exact hm v hv
  | cons p rest ih =>
    intro m hm hp v hv
    refine ih _ ?_ (fun q hq => hp q (List.mem_cons_of_mem p hq)) v hv
    intro w hw
    rcases values_mapSet_sub m p.1 p.2 w hw with h | h
    · exact hm w h
    · exact h ▸ hp p (List.mem_cons_self p rest)

theorem mangleLoop_nodupKeys (tn tin : Str) (pub : Bool) :
    ∀ (names : List Str) (m : List (Str × Str)) (b : Bool),
      (m.map Prod.fst).Nodup →
      (((mangleLoop tn tin pub names m b).1).map Prod.fst).Nodup := by
  intro names
  induction names with
  | nil => intro m b h; exact h
  | cons name rest ih =>
    intro m b h
    rw [mangleLoop]
    by_cases h1 : name = tn
    · rw [if_pos h1]; exact ih _ _ (nodupKeys_mapSet m _ _ h)
    · rw [if_neg h1]
      by_cases h2 : (lookupStr m name).isSome
      · rw [if_pos h2]; exact ih _ _ h
      · rw [if_neg h2]; exact ih _ _ (nodupKeys_mapSet m _ _ h)

theorem mangleLoop_values (tn tin : Str) (pub : Bool) (P : Str → Prop)
    (haddP : ∀ n, P (addMappingGo tn tin pub n)) :
    ∀ (names : List Str) (m : List (Str × Str)) (b : Bool),
      (∀ v ∈ m.map Prod.snd, P v) →
      ∀ v ∈ ((mangleLoop tn tin pub names m b).1).map Prod.snd, P v := by
  intro names
  induction names with
  | nil => intro m b hm v hv; exact hm v hv
  | cons name rest ih =>
    intro m b hm v hv
    rw [mangleLoop] at hv
    by_cases h1 : name = tn
    · rw [if_pos h1] at hv
      refine ih _ _ ?_ v hv
      intro w hw
      rcases values_mapSet_sub m _ _ w hw with h | h
      · exact hm w h
      · exact h ▸ haddP name
    · rw [if_neg h1] at hv
      by_cases h2 : (lookupStr m name).isSome
      · rw [if_pos h2] at hv; exact ih _ _ hm v hv
      · rw [if_neg h2] at hv
        refine ih _ _ ?_ v hv
        intro w hw
        rcases values_mapSet_sub m _ _ w hw with h | h
        · exact hm w h
        · exact h ▸ haddP name

theorem mangleLoop_keys_mono (tn tin : Str) (pub : Bool) :
    ∀ (names : List Str) (m : List (Str × Str)) (b : Bool) (x : Str),
      x ∈ m.map Prod.fst → x ∈ ((mangleLoop tn tin pub names m b).1).map Prod.fst := by
  intro names
  induction names with
  | nil => intro m b x hx; exact hx
  | cons name rest ih =>
    intro m b x hx
    rw [mangleLoop]
    by_cases h1 : name = tn
    · rw [if_pos h1]; exact ih _ _ x (mem_keys_mapSet_of m _ _ x hx)
    · rw [if_neg h1]
      by_cases h2 : (lookupStr m name).isSome
      · rw [if_pos h2]; exact ih _ _ x hx
      · rw [if_neg h2]; exact ih _ _ x (mem_keys_mapSet_of m _ _ x hx)

theorem mangleLoop_complete (tn tin : Str) (pub : Bool) :
    ∀ (names : List Str) (m : List (Str × Str)) (b : Bool) (x : Str),
      x ∈ names → x ∈ ((mangleLoop tn tin pub names m b).1).map Prod.fst := by
  intro names
  induction names with
  | nil => intro m b x hx; exact absurd hx (List.not_mem_nil x)
  | cons name rest ih =>
    intro m b x hx
    rw [mangleLoop]
    rcases List.mem_cons.mp hx with rfl | hmem
    · by_cases h1 : x = tn
      · rw [if_pos h1]
        exact mangleLoop_keys_mono tn tin pub rest _ _ x
          (mem_keys_mapSet_self m _ _)
      · rw [if_neg h1]
        by_cases h2 : (lookupStr m x).isSome
        · rw [if_pos h2]
          exact mangleLoop_keys_mono tn tin pub rest _ _ x
            (lookupStr_isSome_mem m x h2)
        · rw [if_neg h2]
          exact mangleLoop_keys_mono tn tin pub rest _ _ x
            (mem_keys_mapSet_self m _ _)
    · by_cases h1 : name = tn
      · rw [if_pos h1]; exact ih _ _ x hmem
      · rw [if_neg h1]
        by_cases h2 : (lookupStr m name).isSome
        · rw [if_pos h2]; exact ih _ _ x hmem
        · rw [if_neg h2]; exact ih _ _ x hmem

theorem mem_zip_snd : ∀ (a b : List Str) (p : Str × Str), p ∈ a.zip b → p.2 ∈ b := by
  intro a
  induction a with
  | nil => intro b p hp; simp [List.zip] at hp
  | cons x xs ih =>
    intro b p hp
    cases b with
    | nil => simp [List.zip] at hp
    | cons y ys =>
      rcases List.mem_cons.mp hp with rfl | hmem
      · exact List.mem_cons_self y ys
      · exact List.mem_cons_of_mem y (ih ys p hmem)

theorem buildMappings_ok (tn tin : Str) (pub : Bool)
    (tiArgs targs names : List Str) (m : List (Str × Str))
    (h : buildMappings tn tin pub tiArgs targs names = .ok m) :
    m = (mangleLoop tn tin pub names (paramLoop (targs.zip tiArgs) []) false).1 := by
  unfold buildMappings at h
  cases hml : mangleLoop tn tin pub names (paramLoop (targs.zip tiArgs) []) false with
  | mk mm fnd =>
    rw [hml] at h
    cases fnd with
    | true => injection h with h1; exact h1.symm
    | false => exact absurd h (by simp)

theorem buildMappings_nodupKeys (tn tin : Str) (pub : Bool)
    (tiArgs targs names : List Str) (m : List (Str × Str))
    (h : buildMappings tn tin pub tiArgs targs names = .ok m) :
    (m.map Prod.fst).Nodup := by
  rw [buildMappings_ok tn tin pub tiArgs targs names m h]
  exact mangleLoop_nodupKeys tn tin pub names _ false
    (paramLoop_nodupKeys _ [] (by simp))

theorem buildMappings_values (tn tin : Str) (pub : Bool)
    (tiArgs targs names : List Str) (m : List (Str × Str))
    (h : buildMappings tn tin pub tiArgs targs names = .ok m) :
    ∀ v ∈ m.map Prod.snd, v ∈ tiArgs ∨ ∃ n, v = addMappingGo tn tin pub n := by
  rw [buildMappings_ok tn tin pub tiArgs targs names m h]
  refine mangleLoop_values tn tin pub _ (fun n => Or.inr ⟨n, rfl⟩) names _ false ?_
  refine paramLoop_values _ (targs.zip tiArgs) [] (by simp) ?_
  intro p hp
  exact Or.inl (mem_zip_snd targs tiArgs p hp)

theorem buildMappings_complete (tn tin : Str) (pub : Bool)
    (tiArgs targs names : List Str) (m : List (Str × Str))
    (h : buildMappings tn tin pub tiArgs targs names = .ok m) :
    ∀ x ∈ names, x ∈ m.map Prod.fst := by
  rw [buildMappings_ok tn tin pub tiArgs targs names m h]
  intro x hx
  exact mangleLoop_complete tn tin pub names _ false x hx

/-! ### Cumulative substitution lemmas -/

theorem foldName_not_mem (ps : List (Str × Str)) (x : Str)
    (h : x ∉ ps.map Prod.fst) : foldName ps x = x := by
  induction ps with
  | nil => rfl
  | cons p rest ih =>
    simp only [List.map_cons, List.mem_cons] at h
    push_neg at h
    rw [foldName_cons, subst1, if_neg h.1]
    exact ih h.2

theorem foldName_mem_or (ps : List (Str × Str)) :
    ∀ x : Str, foldName ps x = x ∨ foldName ps x ∈ ps.map Prod.snd := by
  induction ps with
  | nil => intro x; exact Or.inl rfl
  | cons p rest ih =>
    intro x
    rw [foldName_cons, subst1]
    by_cases h : x = p.1
    · rw [if_pos h]
      rcases ih p.2 with h1 | h1
      · right; rw [h1]; exact List.mem_cons_self _ _
      · right; exact List.mem_cons_of_mem _ h1
    · rw [if_neg h]
      rcases ih x with h1 | h1
      · exact Or.inl h1
      · exact Or.inr (List.mem_cons_of_mem _ h1)

theorem foldName_mem_values (ps : List (Str × Str)) :
    ∀ x : Str, (ps.map Prod.fst).Nodup → x ∈ ps.map Prod.fst →
      foldName ps x ∈ ps.map Prod.snd := by
  induction ps with
  | nil => intro x _ hx; exact absurd hx (List.not_mem_nil x)
  | cons p rest ih =>
    intro x hnd hx
    simp only [List.map_cons, List.nodup_cons] at hnd
    rw [foldName_cons, subst1]
    rcases List.mem_cons.mp hx with h | h
    · rw [if_pos (by simpa using h)]
      rcases foldName_mem_or rest p.2 with h1 | h1
      · rw [h1]; exact List.mem_cons_self _ _
      · exact List.mem_cons_of_mem _ h1
    · have hne : x ≠ p.1 := by
        intro hcontra
        exact hnd.1 (hcontra ▸ h)
      rw [if_neg hne]
      exact List.mem_cons_of_mem _ (ih x hnd.2 h)

theorem foldName_eq_of_nochain (ps : List (Str × Str)) :
    ∀ (k v : Str), (ps.map Prod.fst).Nodup →
      (∀ p ∈ ps, p.2 ∉ ps.map Prod.fst) → (k, v) ∈ ps →
      foldName ps k = v := by
  induction ps with
  | nil => intro k v _ _ hm; exact absurd hm (List.not_mem_nil _)
  | cons q rest ih =>
    intro k v hnd hnc hm
    simp only [List.map_cons, List.nodup_cons] at hnd
    rcases List.mem_cons.mp hm with h | h
    · subst h
      rw [foldName_cons, subst1, if_pos rfl]
      show foldName rest v = v
      refine foldName_not_mem rest v ?_
      have hv := hnc (k, v) (List.mem_cons_self _ rest)
      simp only [List.map_cons, List.mem_cons] at hv
      push_neg at hv
      exact hv.2
    · have hk : k ∈ rest.map Prod.fst :=
        List.mem_map_of_mem Prod.fst h
      have hne : k ≠ q.1 := by
        intro hcontra
        exact hnd.1 (hcontra ▸ hk)
      rw [foldName_cons, subst1, if_neg hne]
      refine ih k v hnd.2 ?_ h
      intro p hp
      have := hnc p (List.mem_cons_of_mem q hp)
      simp only [List.map_cons, List.mem_cons] at this
      push_neg at this
      exact this.2

theorem foldName_perm (ps qs : List (Str × Str)) (hp : ps.Perm qs)
    (hnd : (ps.map Prod.fst).Nodup)
    (hnc : ∀ p ∈ ps, p.2 ∉ ps.map Prod.fst) (x : Str) :
    foldName ps x = foldName qs x := by
  have hkeys : (ps.map Prod.fst).Perm (qs.map Prod.fst) := hp.map Prod.fst
  by_cases hx : x ∈ ps.map Prod.fst
  · rcases List.mem_map.mp hx with ⟨p, hpmem, hfst⟩
    obtain ⟨a, b⟩ := p
    simp only at hfst
    subst hfst
    have h1 : foldName ps a = b := foldName_eq_of_nochain ps a b hnd hnc hpmem
    have h2 : foldName qs a = b := by
      refine foldName_eq_of_nochain qs a b (hkeys.nodup hnd) ?_ (hp.subset hpmem)
      intro q hq
      have hqp : q ∈ ps := hp.symm.subset hq
      intro hcontra
      exact hnc q hqp (hkeys.symm.subset hcontra)
    rw [h1, h2]
  · rw [foldName_not_mem ps x hx,
      foldName_not_mem qs x (fun hc => hx (hkeys.symm.subset hc))]

/-! ### Visibility lemma -/

theorem lowerFirst_not_exported (s : Str) (h : isExportedStr s = true) :
    isExportedStr (lowerFirst s) = false := by
  cases s with
  | nil => simp [isExportedStr] at h
  | cons c rest =>
    rw [isExportedStr] at h
    rw [lowerFirst, isExportedStr, lowerCode, if_pos h]
    simp only [isUpperCode, Bool.and_eq_true, decide_eq_true_eq] at h
    have h90 : ¬(c + 32 ≤ 90) := by omega
    simp [isUpperCode, h90]

theorem addMappingGo_not_exported (tn tin name : Str) :
    isExportedStr (addMappingGo tn tin false name) = false := by
  show isExportedStr
    (if !false && isExportedStr
        (if !strContains tn name then name ++ tin else replaceFirst tn tin name)
      then lowerFirst (if !strContains tn name then name ++ tin else replaceFirst tn tin name)
      else (if !strContains tn name then name ++ tin else replaceFirst tn tin name)) = false
  generalize (if !strContains tn name then name ++ tin else replaceFirst tn tin name) = repl
  simp only [Bool.not_false, Bool.true_and]
  cases hre : isExportedStr repl with
  | false => simp [hre]
  | true => rw [if_pos rfl]; exact lowerFirst_not_exported repl hre

/-! ### Pipeline inversion -/

theorem pipeline_inv (ti : TemplateInst) (f : File) (m : List (Str × Str))
    (nds : List Decl) (h : pipeline ti f = .ok (m, nds)) :
    ∃ tn targs names, scanComments f.comments = .ok (tn, targs) ∧
      targs.length = ti.Args.length ∧
      classify targs f.decls = .ok (names, nds) ∧
      buildMappings tn ti.Name (isExportedStr ti.Name) ti.Args targs names = .ok m := by
  unfold pipeline at h
  cases hs : scanComments f.comments with
  | error e => rw [hs] at h; exact absurd h (by simp)
  | ok pr =>
    obtain ⟨tn, targs⟩ := pr
    rw [hs] at h
    dsimp only at h
    by_cases hlen : targs.length ≠ ti.Args.length
    · rw [if_pos hlen] at h; exact absurd h (by simp)
    · rw [if_neg hlen] at h
      push_neg at hlen
      cases hc : classify targs f.decls with
      | error e => rw [hc] at h; exact absurd h (by simp)
      | ok pr2 =>
        obtain ⟨names, nds'⟩ := pr2
        rw [hc] at h
        dsimp only at h
        cases hb : buildMappings tn ti.Name (isExportedStr ti.Name) ti.Args targs names with
        | error e => rw [hb] at h; exact absurd h (by simp)
        | ok m' =>
          rw [hb] at h
          dsimp only at h
          injection h with h1
          injection h1 with h2 h3
          subst h2
          subst h3
          exact ⟨tn, targs, names, rfl, hlen, hc, hb⟩

theorem parseModel_of_pipeline (ti : TemplateInst) (f : File)
    (ord m : List (Str × Str)) (nds : List Decl)
    (h : pipeline ti f = .ok (m, nds)) :
    parseModel ti f ord = .ok (outputFileName ti,
      { pkgName := ti.NewPackage
        comments := f.comments
        decls := rewriteDecls ord nds }) := by
  unfold parseModel
  rw [h]

theorem parseModel_of_pipeline_error (ti : TemplateInst) (f : File)
    (ord : List (Str × Str)) (e : Err) (h : pipeline ti f = .error e) :
    parseModel ti f ord = .error e := by
  unfold parseModel
  rw [h]

theorem pipeline_wrongNum (ti : TemplateInst) (f : File) (tn : Str)
    (targs : List Str) (hs : scanComments f.comments = .ok (tn, targs))
    (hlen : targs.length ≠ ti.Args.length) :
    pipeline ti f = .error .wrongNumberOfArguments := by
  unfold pipeline
  rw [hs]
  dsimp only
  rw [if_pos hlen]

theorem classify_error_of_bad (templateArgs : List Str) :
    ∀ l : List Decl, Decl.badDecl ∈ l →
      ∃ e, classify templateArgs l = .error e := by
  intro l
  induction l with
  | nil => intro hb; exact absurd hb (List.not_mem_nil _)
  | cons a rest ih =>
    intro hb
    rcases List.mem_cons.mp hb with rfl | hmem
    · exact ⟨Err.unknownDecl, by rw [classify]; rfl⟩
    · cases h1 : classifyDecl templateArgs a with
      | error e => exact ⟨e, by rw [classify, h1]⟩
      | ok pr =>
        obtain ⟨ns1, rm⟩ := pr
        obtain ⟨e, he⟩ := ih hmem
        exact ⟨e, by rw [classify, h1, he]⟩

theorem containsString_of_mem (x : Str) (l : List Str) (h : x ∈ l) :
    containsString x l = true := by
  unfold containsString
  rw [List.any_eq_true]
  exact ⟨x, h, by simp⟩

theorem classify_mem_kept (templateArgs : List Str) :
    ∀ (l : List Decl) (ns : List Str) (nds : List Decl) (d : Decl),
      classify templateArgs l = .ok (ns, nds) → d ∈ nds →
      ∃ ns1, classifyDecl templateArgs d = .ok (ns1, false) := by
  intro l
  induction l with
  | nil =>
    intro ns nds d h hd
    injection h with h1
    injection h1 with h2 h3
    subst h3
    exact absurd hd (List.not_mem_nil d)
  | cons a rest ih =>
    intro ns nds d h hd
    rw [classify] at h
    cases h1 : classifyDecl templateArgs a with
    | error e => rw [h1] at h; exact absurd h (by simp)
    | ok pr =>
      obtain ⟨ns1, rm⟩ := pr
      rw [h1] at h
      cases h2 : classify templateArgs rest with
      | error e => rw [h2] at h; exact absurd h (by simp)
      | ok pr2 =>
        obtain ⟨ns2, ds2⟩ := pr2
        rw [h2] at h
        simp only at h
        injection h with h3
        injection h3 with h4 h5
        subst h5
        cases rm with
        | true => exact ih ns2 ds2 d h2 hd
        | false =>
          rcases List.mem_cons.mp hd with rfl | hmem
          · exact ⟨ns1, h1⟩
          · exact ih ns2 ds2 d h2 hmem

theorem classifyDecl_kept_not_stub (templateArgs : List Str) (d : Decl)
    (ns1 : List Str) (h : classifyDecl templateArgs d = .ok (ns1, false))
    (p : Str) (hp : p ∈ templateArgs) :
    d.isTypeDeclNamed p = false ∧ d.isPlainFuncNamed p = false := by
  cases d with
  | genDecl tok specs =>
    cases tok with
    | timport => exact ⟨rfl, rfl⟩
    | tconst => exact ⟨rfl, rfl⟩
    | tvar => exact ⟨rfl, rfl⟩
    | ttype =>
      match specs with
      | [Spec.typeSpec n body] =>
        refine ⟨?_, rfl⟩
        injection h with h1
        injection h1 with h2 h3
        show List.any [Spec.typeSpec n body] (fun s =>
          match s with
          | .typeSpec n _ => n == p
          | _ => false) = false
        simp only [List.any_cons, List.any_nil, Bool.or_false]
        rw [beq_eq_false_iff_ne]
        intro hcontra
        subst hcontra
        rw [containsString_of_mem n templateArgs hp] at h3
        exact absurd h3 (by decide)
      | [Spec.importSpec al q] => exact absurd h (by simp [classifyDecl])
      | [Spec.valueSpec names body] => exact absurd h (by simp [classifyDecl])
      | [] => exact absurd h (by simp [classifyDecl])
      | _ :: _ :: _ => exact absurd h (by simp [classifyDecl])
    | tother => exact ⟨rfl, rfl⟩
  | funcDecl recv n body =>
    cases recv with
    | some r => exact ⟨rfl, rfl⟩
    | none =>
      refine ⟨rfl, ?_⟩
      injection h with h1
      injection h1 with h2 h3
      show (n == p) = false
      rw [beq_eq_false_iff_ne]
      intro hcontra
      subst hcontra
      rw [containsString_of_mem n templateArgs hp] at h3
      exact absurd h3 (by decide)
  | badDecl => exact absurd h (by simp [classifyDecl])

theorem isTypeDeclNamed_of_mem (p : Str) (specs : List Spec) (body : Node)
    (hmem : Spec.typeSpec p body ∈ specs) :
    Decl.isTypeDeclNamed p (Decl.genDecl .ttype specs) = true := by
  show specs.any (fun s =>
    match s with
    | .typeSpec n _ => n == p
    | _ => false) = true
  rw [List.any_eq_true]
  exact ⟨Spec.typeSpec p body, hmem, by simp⟩

theorem isTypeDeclNamed_mapIdents_inv (f : Str → Str) (p : Str) (d : Decl)
    (h : Decl.isTypeDeclNamed p (Decl.mapIdents f d) = true) :
    ∃ specs n body, d = Decl.genDecl .ttype specs ∧
      Spec.typeSpec n body ∈ specs ∧ f n = p := by
  cases d with
  | genDecl tok specs =>
    cases tok with
    | ttype =>
      have h2 : (specs.map (Spec.mapIdents f)).any (fun s =>
          match s with
          | .typeSpec n _ => n == p
          | _ => false) = true := h
      rw [List.any_eq_true] at h2
      obtain ⟨s1, hs1, hpred⟩ := h2
      rcases List.mem_map.mp hs1 with ⟨s, hsmem, rfl⟩
      cases s with
      | typeSpec n body => exact ⟨specs, n, body, rfl, hsmem, eq_of_beq hpred⟩
      | importSpec al q => exact Bool.noConfusion hpred
      | valueSpec names body => exact Bool.noConfusion hpred
    | timport => exact Bool.noConfusion h
    | tconst => exact Bool.noConfusion h
    | tvar => exact Bool.noConfusion h
    | tother => exact Bool.noConfusion h
  | funcDecl recv n body =>
    cases recv with
    | none => exact Bool.noConfusion h
    | some r => exact Bool.noConfusion h
  | badDecl => exact Bool.noConfusion h

theorem isPlainFuncNamed_mapIdents_inv (f : Str → Str) (p : Str) (d : Decl)
    (h : Decl.isPlainFuncNamed p (Decl.mapIdents f d) = true) :
    ∃ n body, d = Decl.funcDecl none n body ∧ f n = p := by
  cases d with
  | genDecl tok specs => exact Bool.noConfusion h
  | funcDecl recv n body =>
    cases recv with
    | none => exact ⟨n, body, rfl, eq_of_beq h⟩
    | some r => exact Bool.noConfusion h
  | badDecl => exact Bool.noConfusion h

theorem splitOnCode_no_sep (sep : Nat) :
    ∀ s : Str, sep ∉ s → splitOnCode sep s = [s] := by
  intro s
  induction s with
  | nil => intro _; rfl
  | cons c rest ih =>
    intro h
    simp only [List.mem_cons] at h
    push_neg at h
    rw [splitOnCode, if_neg (fun hc => h.1 hc.symm), ih h.2]

theorem trimSpace_all_space (s : Str) (h : s.all isGoSpace = true) :
    trimSpace s = [] := by
  unfold trimSpace
  have h1 : s.dropWhile isGoSpace = [] :=
    List.dropWhile_eq_nil_iff.mpr (fun x hx => List.all_eq_true.mp h x hx)
  rw [h1]
  rfl

/-! ### Claims -/

/-- Claim C1: for every rename candidate `name` processed by the Mapping
Builder, the computed replacement follows the documented policy: if `name`
contains the template's formal name as a substring, the replacement is
`name` with the first occurrence of the formal name replaced by the
instantiation name, otherwise `name` with the instantiation name appended
as a suffix; and if the instantiation name is non-exported (it does not
begin with an upper-case letter, the visibility convention of §4.3) while
the computed replacement starts with an upper-case letter, exactly the
first character of the replacement is lower-cased.  `addMappingGo` is the
translation of `addMapping` from `main.go` (whose visibility flag is
`ast.IsExported(ti.Name)`), `addMappingSpec` follows the specification's
wording. -/
theorem C1_addMapping_policy (formalName instName name : Str) :
    addMappingGo formalName instName (isExportedStr instName) name =
      addMappingSpec formalName instName name := by
  unfold addMappingGo addMappingSpec
  cases h : strContains formalName name <;> simp [h]

/-- Counterexample to claim C2 as stated: with instantiation name `A`
equal to the formal parameter `A`, the Mapping Builder maps the template
name `Set` to `A`, and under the valid iteration order
`[A -> int, Set -> A]` the emitted output's declaration list contains a
top-level type declaration named `A` — a type declaration whose name
equals a formal parameter.  (The stub itself was removed; the renaming
pass reintroduced the name.) -/
theorem C2_counterexample :
    scanComments fC2.comments = .ok (str "Set", [str "A"]) ∧
    pipeline tiC2 fC2 = .ok (mC2, ndsC2) ∧
    mC2.Perm mC2 ∧
    parseModel tiC2 fC2 mC2 = .ok (str "gotemplate_A.go", outC2) ∧
    Decl.genDecl .ttype [Spec.typeSpec (str "A") Node.nilN] ∈ outC2.decls ∧
    Decl.isTypeDeclNamed (str "A")
      (Decl.genDecl .ttype [Spec.typeSpec (str "A") Node.nilN]) = true :=
  ⟨by rfl, by rfl, List.Perm.refl mC2, by rfl, by decide, by decide⟩

/-- Claim C2 as amended: for every formal parameter `p`, the classifier's
declaration list (stubs removed) contains no type declaration and no
receiver-less function declaration named `p`; and the same holds of the
emitted output's declaration list provided `p` is not itself one of the
name mapping's replacement values — without that proviso a replacement
equal to `p` (e.g. an instantiation name equal to a formal parameter)
reintroduces such a declaration under renaming. -/
theorem C2_stub_removal_amended (ti : TemplateInst) (f : File)
    (ord m : List (Str × Str)) (nds : List Decl) (fn : Str) (out : File)
    (tn p : Str) (targs : List Str)
    (hs : scanComments f.comments = .ok (tn, targs))
    (hpmem : p ∈ targs)
    (hp : pipeline ti f = .ok (m, nds))
    (hord : ord.Perm m)
    (hrun : parseModel ti f ord = .ok (fn, out)) :
    (∀ d ∈ nds, d.isTypeDeclNamed p = false ∧ d.isPlainFuncNamed p = false) ∧
    (p ∉ m.map Prod.snd →
      ∀ d ∈ out.decls,
        d.isTypeDeclNamed p = false ∧ d.isPlainFuncNamed p = false) := by
  obtain ⟨tn2, targs2, names, hs2, hlen, hc, hb⟩ := pipeline_inv ti f m nds hp
  rw [hs] at hs2
  injection hs2 with hpr
  injection hpr with htn hta
  subst htn
  subst hta
  have hout : out = { pkgName := ti.NewPackage
                      comments := f.comments
                      decls := rewriteDecls ord nds } := by
    have heq := parseModel_of_pipeline ti f ord m nds hp
    rw [hrun] at heq
    injection heq with h1
    injection h1 with h2 h3
  constructor
  · intro d hd
    obtain ⟨ns1, hcd⟩ := classify_mem_kept targs f.decls names nds d hc hd
    exact classifyDecl_kept_not_stub targs d ns1 hcd p hpmem
  · intro hpv d hd
    rw [hout] at hd
    dsimp only at hd
    rw [rewriteDecls_eq_map] at hd
    rcases List.mem_map.mp hd with ⟨d0, hd0, rfl⟩
    obtain ⟨ns1, hcd⟩ := classify_mem_kept targs f.decls names nds d0 hc hd0
    have hstub := classifyDecl_kept_not_stub targs d0 ns1 hcd p hpmem
    constructor
    · cases htd : Decl.isTypeDeclNamed p (Decl.mapIdents (foldName ord) d0) with
      | false => rfl
      | true =>
        obtain ⟨specs, n, body, rfl, hsmem, hfn⟩ :=
          isTypeDeclNamed_mapIdents_inv (foldName ord) p d0 htd
        rcases foldName_mem_or ord n with he | he
        · rw [he] at hfn
          subst hfn
          have hT := isTypeDeclNamed_of_mem n specs body hsmem
          rw [hstub.1] at hT
          exact Bool.noConfusion hT
        · rw [hfn] at he
          exact absurd ((hord.map Prod.snd).subset he) hpv
    · cases hfd : Decl.isPlainFuncNamed p (Decl.mapIdents (foldName ord) d0) with
      | false => rfl
      | true =>
        obtain ⟨n, body, rfl, hfn⟩ :=
          isPlainFuncNamed_mapIdents_inv (foldName ord) p d0 hfd
        rcases foldName_mem_or ord n with he | he
        · rw [he] at hfn
          subst hfn
          have hT : Decl.isPlainFuncNamed n (Decl.funcDecl none n body) = true := by
            show (n == n) = true
            simp
          rw [hstub.2] at hT
          exact Bool.noConfusion hT
        · rw [hfn] at he
          exact absurd ((hord.map Prod.snd).subset he) hpv

/-- Witness for the amended C2 on the concrete run `tiEx`/`fEx` with
formal parameter `A` (which is not among the replacement values): the
rewritten type declaration in the output is named `IntSet`, not `A`. -/
theorem C2_amended_witness :
    Decl.isTypeDeclNamed (str "A")
        (Decl.genDecl .ttype
          [Spec.typeSpec (str "IntSet") (Node.ident (str "int"))]) = false ∧
    Decl.isPlainFuncNamed (str "A")
        (Decl.genDecl .ttype
          [Spec.typeSpec (str "IntSet") (Node.ident (str "int"))]) = false :=
  (C2_stub_removal_amended tiEx fEx mEx mEx ndsEx (str "gotemplate_IntSet.go")
      outEx (str "Set") (str "A") [str "A"] (by rfl) (by decide) (by rfl)
      (List.Perm.refl mEx) (by rfl)).2 (by decide) _ (by decide)

/-- Claim C3: whenever the formal-parameter count extracted from the
annotation differs from the number of caller-supplied concrete arguments,
`parse` aborts with the wrong-number-of-arguments fatal condition —
regardless of the declaration list, i.e. before any classification,
mapping, rewriting, or output — and nothing is written. -/
theorem C3_wrong_arg_count (ti : TemplateInst) (f : File)
    (ord : List (Str × Str)) (tn : Str) (targs : List Str)
    (hs : scanComments f.comments = .ok (tn, targs))
    (hlen : targs.length ≠ ti.Args.length) :
    parseModel ti f ord = .error .wrongNumberOfArguments :=
  parseModel_of_pipeline_error ti f ord _ (pipeline_wrongNum ti f tn targs hs hlen)

/-- Witness for C3: a two-argument request against a one-parameter
template aborts with the wrong-number-of-arguments error even though the
file's declaration list (a `BadDecl`) would itself be fatal to classify. -/
theorem C3_witness : parseModel tiC3 fC3 [] = .error .wrongNumberOfArguments :=
  C3_wrong_arg_count tiC3 fC3 [] (str "Set") [str "A"] (by rfl) (by decide)

/-- Counterexample to claim C4 as stated: request `tiC4` instantiates with
the non-exported name `intSet`, yet the generated output declares the
top-level identifier `Int` (upper-case initial): the template's
`var A = ...` is named after the formal parameter, is not removed (only
type and function stubs are), and is rewritten to the concrete argument
`Int` verbatim, with no visibility adjustment.  The iteration order used
is exactly the constructed mapping, a permutation of itself. -/
theorem C4_counterexample :
    isExportedStr tiC4.Name = false ∧
    pipeline tiC4 fC4 = .ok (mC4, ndsC4) ∧
    mC4.Perm mC4 ∧
    str "Int" ∈ resultTopNames (parseModel tiC4 fC4 mC4) ∧
    isExportedStr (str "Int") = true :=
  ⟨by decide, by rfl, List.Perm.refl mC4, by decide, by decide⟩

/-- Claim C4 as amended: for every instantiation whose name is
non-exported, every top-level identifier of the generated output either
does not start with an upper-case letter or is one of the caller's
concrete arguments (a formal parameter's direct positional substitution,
which is copied verbatim and may be exported). -/
theorem C4_visibility_amended (ti : TemplateInst) (f : File)
    (ord m : List (Str × Str)) (nds : List Decl) (fn : Str) (out : File)
    (hwf : ∀ d ∈ f.decls, d.wf = true)
    (hp : pipeline ti f = .ok (m, nds))
    (hord : ord.Perm m)
    (hlow : isExportedStr ti.Name = false)
    (hrun : parseModel ti f ord = .ok (fn, out)) :
    ∀ x ∈ topLevelNames out.decls, isExportedStr x = false ∨ x ∈ ti.Args := by
  have hout : out = { pkgName := ti.NewPackage
                      comments := f.comments
                      decls := rewriteDecls ord nds } := by
    have heq := parseModel_of_pipeline ti f ord m nds hp
    rw [hrun] at heq
    injection heq with h1
    injection h1 with h2 h3
  obtain ⟨tn, targs, names, hs, hlen, hc, hb⟩ := pipeline_inv ti f m nds hp
  intro x hx
  rw [hout] at hx
  dsimp only at hx
  rw [rewriteDecls_eq_map, topLevelNames_map] at hx
  rcases List.mem_map.mp hx with ⟨x0, hx0, hfx⟩
  have hx0names : x0 ∈ names :=
    classify_topNames_sub targs f.decls names nds hwf hc x0 hx0
  have hx0keys : x0 ∈ m.map Prod.fst :=
    buildMappings_complete tn ti.Name (isExportedStr ti.Name) ti.Args targs
      names m hb x0 hx0names
  have hnd : (m.map Prod.fst).Nodup :=
    buildMappings_nodupKeys tn ti.Name (isExportedStr ti.Name) ti.Args targs
      names m hb
  have hkeysp : (ord.map Prod.fst).Perm (m.map Prod.fst) := hord.map Prod.fst
  have hx0ord : x0 ∈ ord.map Prod.fst := hkeysp.mem_iff.mpr hx0keys
  have hndord : (ord.map Prod.fst).Nodup := hkeysp.symm.nodup hnd
  have hval : foldName ord x0 ∈ ord.map Prod.snd :=
    foldName_mem_values ord x0 hndord hx0ord
  have hvalm : foldName ord x0 ∈ m.map Prod.snd := (hord.map Prod.snd).subset hval
  rcases buildMappings_values tn ti.Name (isExportedStr ti.Name) ti.Args targs
      names m hb _ hvalm with hone | ⟨n, hn⟩
  · right
    rw [← hfx]
    exact hone
  · left
    rw [hlow] at hn
    rw [← hfx, hn]
    exact addMappingGo_not_exported tn ti.Name n

/-- Witness for the amended C4 on the concrete run `tiC4`/`fC4`: the
generated type name `intSet` is covered by the first disjunct. -/
theorem C4_amended_witness :
    isExportedStr (str "intSet") = false ∨ str "intSet" ∈ tiC4.Args :=
  C4_visibility_amended tiC4 fC4 mC4 mC4 ndsC4 (outputFileName tiC4) outC4
    (by decide) (by rfl) (List.Perm.refl mC4) (by decide) (by rfl)
    (str "intSet") (by decide)

/-- Claim C5: on every successful run the emitted tree's package clause is
the request's target package, and the output file name is the fixed prefix
`gotemplate_`, the instantiation name, and the `.go` suffix. -/
theorem C5_emitter_contract (ti : TemplateInst) (f : File)
    (ord : List (Str × Str)) (fn : Str) (out : File)
    (h : parseModel ti f ord = .ok (fn, out)) :
    fn = str "gotemplate_" ++ ti.Name ++ str ".go" ∧
    out.pkgName = ti.NewPackage := by
  unfold parseModel at h
  cases hp : pipeline ti f with
  | error e => rw [hp] at h; exact absurd h (by simp)
  | ok pr =>
    obtain ⟨m, nds⟩ := pr
    rw [hp] at h
    dsimp only at h
    injection h with h1
    injection h1 with h2 h3
    constructor
    · rw [← h2]; rfl
    · rw [← h3]

/-- Witness for C5 on the concrete run `tiEx`/`fEx`. -/
theorem C5_witness :
    str "gotemplate_IntSet.go" = str "gotemplate_" ++ tiEx.Name ++ str ".go" ∧
    outEx.pkgName = tiEx.NewPackage :=
  C5_emitter_contract tiEx fEx mEx (str "gotemplate_IntSet.go") outEx (by rfl)

/-- Counterexample to claim C6 as stated: `parseArgs` of the empty
parameter list yields the one-element sequence containing the empty
string, not the empty sequence. -/
theorem C6_counterexample : parseArgs [] = [[]] ∧ parseArgs [] ≠ [] :=
  ⟨by rfl, by decide⟩

/-- Claim C6 as amended: an annotation parameter list that is empty or
consists only of whitespace yields the one-element sequence containing the
empty string (Go's `strings.Split` always returns at least one field, and
trimming a whitespace-only field leaves the empty string); otherwise the
parameters are the comma-separated fields trimmed of whitespace (the
definition of `parseArgs`). -/
theorem C6_empty_params_amended (s : Str) (h : s.all isGoSpace = true) :
    parseArgs s = [[]] := by
  unfold parseArgs
  have hnc : (44 : Nat) ∉ s := by
    intro hc
    exact absurd (List.all_eq_true.mp h 44 hc) (by decide)
  rw [splitOnCode_no_sep 44 s hnc]
  show [trimSpace s] = [[]]
  rw [trimSpace_all_space s h]

/-- Witness for the amended C6: a single-blank parameter list. -/
theorem C6_amended_witness :
    ([32] : Str).all isGoSpace = true ∧ parseArgs [32] = [[]] :=
  ⟨by decide, C6_empty_params_amended [32] (by decide)⟩

/-- Counterexample to claim C7 as stated: a general declaration with an
unrecognized keyword/token is *not* fatal — the classifier merely logs it,
classification succeeds, and the declaration is kept in the output
declaration list. -/
theorem C7_counterexample :
    classify [] [Decl.genDecl .tother []] =
      .ok ([], [Decl.genDecl .tother []]) := by rfl

/-- Claim C7 as amended: a top-level declaration of unknown shape (an
unrecognized `ast.Decl` node) is fatal, but a general declaration with an
unrecognized keyword/token is only logged and is carried unchanged into
the output declaration list. -/
theorem C7_unknown_decls_amended :
    (∀ (targs : List Str) (l : List Decl), Decl.badDecl ∈ l →
      ∃ e, classify targs l = .error e) ∧
    (∀ (targs : List Str) (l : List Decl) (ns : List Str) (nds : List Decl)
      (specs : List Spec), classify targs l = .ok (ns, nds) →
      Decl.genDecl .tother specs ∈ l → Decl.genDecl .tother specs ∈ nds) := by
  constructor
  · intro targs l hb
    exact classify_error_of_bad targs l hb
  · intro targs l ns nds specs h hmem
    exact classify_keeps targs l ns nds _ [] h hmem (by rfl)

/-- Witness for the amended C7: a `BadDecl` aborts classification, while
an unrecognized-token general declaration is kept. -/
theorem C7_witness :
    (∃ e, classify [] [Decl.badDecl] = .error e) ∧
    Decl.genDecl .tother [] ∈ [Decl.genDecl .tother []] :=
  ⟨C7_unknown_decls_amended.1 [] [Decl.badDecl] (by decide),
   C7_unknown_decls_amended.2 [] [Decl.genDecl .tother []] []
     [Decl.genDecl .tother []] [] (by rfl) (by decide)⟩

/-- Counterexample to claim C8 as stated: `tiC8`/`fC8` build a mapping in
which the replacement of `Set` (namely `IntSet`) is itself a mapped
original name, so the per-mapping sequential rewrite passes depend on the
Go map's unspecified iteration order: two runs iterating the same mapping
in different (both valid) orders produce different output contents. -/
theorem C8_counterexample :
    pipeline tiC8 fC8 = .ok (mC8, ndsC8) ∧
    mC8.reverse.Perm mC8 ∧
    parseModel tiC8 fC8 mC8 ≠ parseModel tiC8 fC8 mC8.reverse := by
  refine ⟨by rfl, List.reverse_perm mC8, ?_⟩
  intro h
  have hcontra := congrArg resultTopNames h
  have e1 : resultTopNames (parseModel tiC8 fC8 mC8) =
      [str "IntIntSet", str "IntIntSet"] := by rfl
  have e2 : resultTopNames (parseModel tiC8 fC8 mC8.reverse) =
      [str "IntSet", str "IntIntSet"] := by rfl
  rw [e1, e2] at hcontra
  exact absurd hcontra (by decide)

/-- Claim C8 as amended: two runs on the same template source with the
same request always produce the same target file name, and byte-identical
content whenever no mapping's replacement is itself a mapped original name
(in which case the per-mapping rewrite passes commute); with such a
key/replacement overlap the sequential rewrite over the unordered map may
produce different contents across runs. -/
theorem C8_determinism_amended (ti : TemplateInst) (f : File)
    (m : List (Str × Str)) (nds : List Decl) (ord1 ord2 : List (Str × Str))
    (hp : pipeline ti f = .ok (m, nds))
    (h1 : ord1.Perm m) (h2 : ord2.Perm m)
    (hnc : ∀ p ∈ m, p.2 ∉ m.map Prod.fst) :
    parseModel ti f ord1 = parseModel ti f ord2 := by
  rw [parseModel_of_pipeline ti f ord1 m nds hp,
    parseModel_of_pipeline ti f ord2 m nds hp]
  obtain ⟨tn, targs, names, hs, hlen, hc, hb⟩ := pipeline_inv ti f m nds hp
  have hnd : (m.map Prod.fst).Nodup :=
    buildMappings_nodupKeys tn ti.Name (isExportedStr ti.Name) ti.Args targs
      names m hb
  have hfun : ∀ x, foldName ord1 x = foldName ord2 x := by
    intro x
    rw [← foldName_perm m ord1 h1.symm hnd hnc x,
      ← foldName_perm m ord2 h2.symm hnd hnc x]
  have hdecl : rewriteDecls ord1 nds = rewriteDecls ord2 nds := by
    rw [rewriteDecls_eq_map, rewriteDecls_eq_map, funext hfun]
  rw [hdecl]

/-- Witness for the amended C8: the mapping of `tiEx`/`fEx` has no
key/replacement overlap, so forward and reversed iteration orders emit
identical files. -/
theorem C8_amended_witness :
    parseModel tiEx fEx mEx = parseModel tiEx fEx mEx.reverse :=
  C8_determinism_amended tiEx fEx mEx ndsEx mEx mEx.reverse (by rfl)
    (List.Perm.refl mEx) (List.reverse_perm mEx) (by decide)

/-- Claim C9: substitution is exact-name and structural.  An identifier
`X` that is a proper substring of a mapped name but is not itself a key of
the mapping is fixed by the cumulative substitution, and the rewrite
passes act on a tree purely pointwise on identifier occurrences — so every
occurrence of `X` appears unchanged in the output tree.  (The rewriter is
modelled from the specification, `rewriteFile` not being among the
examined sources.) -/
theorem C9_exact_substitution (ps : List (Str × Str)) (X : Str)
    (_hsub : ∃ M ∈ ps.map Prod.fst, strContains X M = true ∧ X ≠ M)
    (hkey : X ∉ ps.map Prod.fst) :
    foldName ps X = X ∧
    ∀ t : Node, Node.rewriteAll ps t = t.mapIdents (foldName ps) :=
  ⟨foldName_not_mem ps X hkey, fun t => rewriteAll_eq_mapIdents ps t⟩

/-- Witness for C9: with the single mapping `Set -> IntSet`, the
identifier `Se` (a proper substring of the mapped name `Set`) is
untouched. -/
theorem C9_witness :
    (str "Se" ∉ ([(str "Set", str "IntSet")].map Prod.fst)) ∧
    foldName [(str "Set", str "IntSet")] (str "Se") = str "Se" :=
  ⟨by decide,
   (C9_exact_substitution [(str "Set", str "IntSet")] (str "Se")
      ⟨str "Set", by decide, by decide, by decide⟩ (by decide)).1⟩

/-- Counterexample to claim C10 as stated: the aliased import
`import A "fmt"` — legal Go, with alias equal to the formal parameter
`A` — is *not* carried unchanged into the output: the alias is a bare
identifier node and the whole-tree rewrite renames it (`A -> int`)
together with every other occurrence of `A`.  The import is still never a
rename candidate and never deleted: its renamed form is in the output. -/
theorem C10_counterexample :
    pipeline tiC10 fC10 = .ok (mC10, ndsC10) ∧
    mC10.Perm mC10 ∧
    parseModel tiC10 fC10 mC10 = .ok (str "gotemplate_IntSet.go", outC10) ∧
    Decl.genDecl .timport [Spec.importSpec (some (str "A")) (str "fmt")]
      ∈ fC10.decls ∧
    Decl.genDecl .timport [Spec.importSpec (some (str "A")) (str "fmt")]
      ∉ outC10.decls ∧
    Decl.genDecl .timport [Spec.importSpec (some (str "int")) (str "fmt")]
      ∈ outC10.decls :=
  ⟨by rfl, List.Perm.refl mC10, by rfl, by decide, by decide, by decide⟩

/-- Claim C10 as amended (implicit frame property): import declarations
register no rename candidates and are never deleted by the classifier;
every import declaration of the input survives into the output
declaration list with exactly its identifier occurrences rewritten — in
particular an import spec list without alias identifiers (the typical
`import "path"` form) is carried unchanged. -/
theorem C10_imports_frame_amended (targs : List Str) (specs : List Spec)
    (ti : TemplateInst) (f : File) (ord : List (Str × Str))
    (fn : Str) (out : File) :
    classifyDecl targs (Decl.genDecl .timport specs) = .ok ([], false) ∧
    (parseModel ti f ord = .ok (fn, out) →
      Decl.genDecl .timport specs ∈ f.decls →
      Decl.genDecl .timport (specs.map (Spec.mapIdents (foldName ord)))
        ∈ out.decls) ∧
    (specs.all Spec.isBareImport = true →
      specs.map (Spec.mapIdents (foldName ord)) = specs) := by
  refine ⟨rfl, ?_, ?_⟩
  · intro hrun hmem
    cases hp : pipeline ti f with
    | error e =>
      rw [parseModel_of_pipeline_error ti f ord e hp] at hrun
      exact absurd hrun (by simp)
    | ok pr =>
      obtain ⟨m, nds⟩ := pr
      have heq := parseModel_of_pipeline ti f ord m nds hp
      rw [hrun] at heq
      injection heq with h1
      injection h1 with h2 h3
      obtain ⟨tn, targsp, names, hsp, hlen, hc, hb⟩ := pipeline_inv ti f m nds hp
      have hkept : Decl.genDecl .timport specs ∈ nds :=
        classify_keeps targsp f.decls names nds _ [] hc hmem rfl
      rw [h3]
      dsimp only
      rw [rewriteDecls_eq_map]
      exact List.mem_map_of_mem (Decl.mapIdents (foldName ord)) hkept
  · intro hbare
    exact specs_map_of_bare_imports (foldName ord) specs hbare

/-- Witness for the amended C10 on the concrete run `tiC10`/`fC10`: the
aliased `fmt` import registers no candidates, is not deleted, and appears
in the output with its identifier occurrences rewritten. -/
theorem C10_amended_witness :
    classifyDecl [str "A"]
        (Decl.genDecl .timport [Spec.importSpec (some (str "A")) (str "fmt")]) =
      .ok ([], false) ∧
    Decl.genDecl .timport
        ([Spec.importSpec (some (str "A")) (str "fmt")].map
          (Spec.mapIdents (foldName mC10))) ∈ outC10.decls :=
  ⟨(C10_imports_frame_amended [str "A"]
      [Spec.importSpec (some (str "A")) (str "fmt")] tiC10 fC10 mC10
      (str "gotemplate_IntSet.go") outC10).1,
   (C10_imports_frame_amended [str "A"]
      [Spec.importSpec (some (str "A")) (str "fmt")] tiC10 fC10 mC10
      (str "gotemplate_IntSet.go") outC10).2.1 (by rfl) (by decide)⟩
